import Mathlib

/-!
Verification development for `jquery.dataTables.orbiaColumnFilter.js`
(OrbiaColumnFilter 0.1.0, a jQuery DataTables 1.10 column-filter plugin).

Modelling conventions:
* JavaScript strings are `List Char`.
* JavaScript numbers (IEEE doubles) are idealized as `ℚ`; `NaN` is modelled
  by `Option ℚ` with `none` standing for NaN.  `parseFloat` is embedded on
  its finite decimal fragment (optional sign, digits, fraction, exponent);
  `Infinity` literals and double rounding are outside the model.
* DOM/table identities (`settings.nTable`, the node returned by
  `api.table().node()`) are modelled as `Nat` ids.
* Browser timers (`setTimeout`/`clearTimeout`) are modelled explicitly as a
  table of pending `Timer` records carrying their scheduling time and fire
  time; time is a `Nat` of abstract "time units" (milliseconds in the code).
-/

/-- Characters skipped by JavaScript `parseFloat` as leading whitespace
(the common ones; exotic Unicode space code points are omitted). -/
def isJsWhitespace (c : Char) : Bool :=
  c = ' ' || c = '\t' || c = '\n' || c = '\r'

/-- Numeric value of a decimal digit character. -/
def digitVal (c : Char) : Nat :=
  c.toNat - ('0').toNat

/-- Split a character list into its longest prefix of decimal digits
(as digit values) and the rest. -/
def spanDigits : List Char → List Nat × List Char
  | [] => ([], [])
  | c :: r =>
    if c.isDigit then
      ((spanDigits r).1.cons (digitVal c), (spanDigits r).2)
    else
      ([], c :: r)

/-- Value of a big-endian list of decimal digit values. -/
def digitsToNat (ds : List Nat) : Nat :=
  ds.foldl (fun acc d => acc * 10 + d) 0

/-- Consume an optional sign; returns `true` when the sign is `-`. -/
def parseSign : List Char → Bool × List Char
  | '-' :: r => (true, r)
  | '+' :: r => (false, r)
  | l => (false, l)

/-- Embedding of the decimal fragment of JavaScript `parseFloat`:
skip leading whitespace, optional sign, integer digits, optional `.` and
fraction digits, optional exponent; the longest valid numeric prefix is
converted and any trailing characters are ignored.  `none` models `NaN`
(no digits at all in the mantissa).  The rational is assembled as an
integer numerator over a power-of-ten denominator. -/
def parseFloat (l : List Char) : Option ℚ :=
  let l1 := l.dropWhile isJsWhitespace
  let s2 := parseSign l1
  let ipr := spanDigits s2.2
  let fpr := match ipr.2 with
    | '.' :: r => spanDigits r
    | _ => ([], ipr.2)
  if ipr.1.isEmpty && fpr.1.isEmpty then none
  else
    let baseNum : Nat := digitsToNat ipr.1 * 10 ^ fpr.1.length + digitsToNat fpr.1
    let scaled : Nat × Nat := match fpr.2 with
      | c :: r =>
        if c = 'e' || c = 'E' then
          let es := parseSign r
          let ed := spanDigits es.2
          if ed.1.isEmpty then (baseNum, 10 ^ fpr.1.length)
          else if es.1 then (baseNum, 10 ^ fpr.1.length * 10 ^ digitsToNat ed.1)
          else (baseNum * 10 ^ digitsToNat ed.1, 10 ^ fpr.1.length)
        else (baseNum, 10 ^ fpr.1.length)
      | [] => (baseNum, 10 ^ fpr.1.length)
    some (mkRat (if s2.1 then -(scaled.1 : Int) else (scaled.1 : Int)) scaled.2)

/-- JavaScript `String.prototype.replace` with a one-character string
pattern: only the first occurrence is replaced. -/
def replaceFirst (pat repl : Char) : List Char → List Char
  | [] => []
  | c :: r => if c = pat then repl :: r else c :: replaceFirst pat repl r

/-- JavaScript `x || 0` on a number: `NaN` (and `0` itself) coerce to `0`,
every other number is kept. -/
def jsOr0 : Option ℚ → ℚ
  | none => 0
  | some q => if q = 0 then 0 else q

/-- JavaScript `<=` on numbers where either operand may be NaN: any
comparison with NaN is `false`. -/
def jsLe : Option ℚ → Option ℚ → Bool
  | some a, some b => decide (a ≤ b)
  | _, _ => false

/-- Line 211/212: a bound string is normalized (`','` → `'.'`, first
occurrence, as `replace` does) and fed to `parseFloat`. -/
def parseBound (l : List Char) : Option ℚ :=
  parseFloat (replaceFirst ',' '.' l)

/-- Line 213: `parseFloat(data[ci]) || 0` — the cell value, with an
unparseable cell coerced to `0`. -/
def cellValue (l : List Char) : ℚ :=
  jsOr0 (parseFloat l)

/-- Lines 211–214: body of the local-mode number-range predicate.
`min`/`max` come from the two inputs, `value` from the row's cell; the
returned boolean is the source's four-way disjunction verbatim (in
JavaScript a comparison against NaN is `false`, which `jsLe` mirrors). -/
def rangeMatches (fromVal toVal cell : List Char) : Bool :=
  let mn := parseBound fromVal
  let mx := parseBound toVal
  let v := cellValue cell
  (mn.isNone && mx.isNone) || (mn.isNone && jsLe (some v) mx)
    || (jsLe mn (some v) && mx.isNone) || (jsLe mn (some v) && jsLe (some v) mx)

/-- Acceptance condition of the spec (claim C4), transcribed from its
words: both bounds NaN; or only the lower NaN and `value ≤ max`; or only
the upper NaN and `min ≤ value`; or both numbers and `min ≤ value ≤ max`. -/
def specRangeCond : Option ℚ → Option ℚ → ℚ → Bool
  | none, none, _ => true
  | none, some mx, v => decide (v ≤ mx)
  | some mn, none, v => decide (mn ≤ v)
  | some mn, some mx, v => decide (mn ≤ v) && decide (v ≤ mx)

/-- Lines 206–216: the closure pushed onto `$.fn.dataTable.ext.search` in
local (non-serverSide) number-range mode.  `nTable` is the table node the
predicate was built for, `settingsNTable` the node of the table being
drawn; `fromVal`/`toVal` are the two inputs' current values and `cell` is
`data[ci]`.  Note the source returns `false` (not `true`) when the tables
differ. -/
def extSearchPredicate (nTable : Nat) (fromVal toVal : List Char)
    (settingsNTable : Nat) (cell : List Char) : Bool :=
  if settingsNTable ≠ nTable then false
  else rangeMatches fromVal toVal cell

/-- The character `\x7b` (left curly brace), written via its code point. -/
def openBrace : Char := Char.ofNat 123

/-- The character `\x7d` (right curly brace), written via its code point. -/
def closeBrace : Char := Char.ofNat 125

/-- The characters escaped by the host collaborator
`$.fn.dataTable.util.escapeRegex` (DataTables 1.10 `_fnEscapeRegex`):
each of these is prefixed with a backslash. -/
def dtEscapedChars : List Char :=
  ['/', '.', '*', '+', '?', '|', '(', ')', '[', ']', openBrace, closeBrace, '\\', '$', '^', '-']

/-- Embedding of `$.fn.dataTable.util.escapeRegex` (host collaborator,
called on line 138): every regex metacharacter in the value is prefixed
with a backslash so the value is treated as a literal. -/
def escapeRegex : List Char → List Char
  | [] => []
  | c :: r => if c ∈ dtEscapedChars then '\\' :: c :: escapeRegex r else c :: escapeRegex r

/-- Lines 136–146: the value transformation performed by the select change
handler.  The raw key is regex-escaped first (line 138); then, server-side
with a non-empty value, `'equals:'` is prepended; client-side with a
non-empty value the escaped key is anchored with `'^'`/`'$'`; an empty
value is left as the empty string. -/
def selectEncode (serverSide : Bool) (rawKey : List Char) : List Char :=
  let val := escapeRegex rawKey
  if serverSide && !val.isEmpty then ("equals:").data ++ val
  else if !val.isEmpty then '^' :: (val ++ ['$'])
  else val

/-- Characters that carry non-literal meaning in a JavaScript regex body
(outside character classes). -/
def regexSpecial : List Char :=
  ['.', '*', '+', '?', '|', '(', ')', '[', ']', openBrace, closeBrace, '\\', '^', '$']

/-- Parse a regex body made only of literal atoms: a plain non-special
character stands for itself and a backslash escape stands for the escaped
character.  Returns `none` when the body uses any other regex construct
(such patterns are outside this literal fragment). -/
def parseLits : List Char → Option (List Char)
  | [] => some []
  | c :: r =>
    if c = '\\' then
      match r with
      | [] => none
      | c2 :: r2 => (parseLits r2).map (fun l => c2 :: l)
    else if c ∈ regexSpecial then none
    else (parseLits r).map (fun l => c :: l)

/-- Match a sequence of literal atoms against a string: each atom consumes
exactly its own character. -/
def litsMatch : List Char → List Char → Bool
  | [], [] => true
  | a :: as, c :: cs => decide (a = c) && litsMatch as cs
  | _, _ => false

/-- Full-match semantics of an anchored literal-only pattern `^body$`:
strip the two anchors, parse the body into literal atoms and match them
against the whole subject.  `none` when the pattern is not of this shape
(such patterns are outside the fragment this matcher models). -/
def anchoredLitMatch (pat s : List Char) : Option Bool :=
  match pat with
  | [] => none
  | c :: rest =>
    if c = '^' then
      if rest.getLast? = some '$' then
        (parseLits rest.dropLast).map (fun lits => litsMatch lits s)
      else none
    else none

/-- The per-column filter kinds of the plugin plus the catch-all for an
unrecognized `orbiaColumnFilter.type` string. -/
inductive FilterType where
  | text
  | select
  | numberRange
  | other (s : List Char)

/-- A thrown JavaScript error during setup. -/
inductive SetupError where
  | referenceError (ident : List Char)

/-- The control rendered into a column's filter cell. -/
inductive RenderedControl where
  | textInput
  | selectInput
  | rangeInputs

/-- Lines 115–227: one iteration of the per-column `switch`.  The
`default` branch executes
`console && console.warn('Invalid orbiaColumnFilter type for column ' + value + '.')`;
the identifier `value` is not declared in any enclosing scope (the only
`var value` lives inside the local-mode search closure, a different
function), so building the message throws `ReferenceError` instead of
logging a warning; if `console` itself is undeclared, reading it throws
as well.  Either way the branch throws. -/
def renderFilterCell : FilterType → Except SetupError RenderedControl
  | .text => .ok .textInput
  | .select => .ok .selectInput
  | .numberRange => .ok .rangeInputs
  | .other _ => .error (.referenceError (("value").data))

/-- Lines 110–231: the `api.columns().flatten().each` loop over the
columns (`none` = column without an attached filter).  An exception
thrown inside the callback propagates and aborts the whole iteration, so
columns after the offending one are never processed. -/
def setupColumns : List (Option FilterType) → Except SetupError (List (Option RenderedControl))
  | [] => .ok []
  | none :: rest => (setupColumns rest).map (fun cs => none :: cs)
  | some ft :: rest =>
    match renderFilterCell ft with
    | .error e => .error e
    | .ok c => (setupColumns rest).map (fun cs => some c :: cs)

/-- A pending browser timer: its handle (`setTimeout`'s return value), the
time it was scheduled at, and the time it will fire. -/
structure Timer where
  id : Nat
  sched : Nat
  fire : Nat

/-- Browser `clearTimeout`: remove the timer with the given handle from
the pending table (a no-op if it already fired). -/
def clearTimeout (h : Nat) (ps : List Timer) : List Timer :=
  ps.filter (fun tm => tm.id != h)

/-- Lines 126–131 (and the identical blocks at 147–152, 177–182,
196–201): `if (tr.data('timeout')) clearTimeout(tr.data('timeout'));
tr.data('timeout', setTimeout(..., 500))`.  Given the stored handle, the
pending table and the next fresh handle, returns the new stored handle,
pending table and fresh-handle counter; the new timer is scheduled `now`
and fires at `now + 500`. -/
def scheduleRedraw (now : Nat) (handle : Option Nat) (pending : List Timer) (nextId : Nat) :
    Option Nat × List Timer × Nat :=
  let cleared := match handle with
    | some h => clearTimeout h pending
    | none => pending
  (some nextId, cleared ++ [⟨nextId, now, now + 500⟩], nextId + 1)

/-- The browser firing every timer due at time `now`: due timers leave the
pending table and their callback (`api.draw()`) runs, logged by its fire
time. -/
def fireDuePR (now : Nat) (pending : List Timer) (redraws : List Nat) :
    List Timer × List Nat :=
  (pending.filter (fun tm => !decide (tm.fire ≤ now)),
   redraws ++ (pending.filter (fun tm => decide (tm.fire ≤ now))).map Timer.fire)

/-- Runtime state of one text-filter input together with its host-facing
effects: the input's current value, its `$this.data('val')` memo (`none` =
never set), the column's search slot, the number of `search()` calls, the
row's `tr.data('timeout')` handle, the pending timer table, the fresh
timer-handle counter and the log of executed redraws (by fire time). -/
structure TextState where
  val : List Char
  memo : Option (List Char)
  slot : List Char
  searches : Nat
  handle : Option Nat
  pending : List Timer
  nextId : Nat
  redraws : List Nat

/-- Lines 117–133: the text input's `input change` handler, run at time
`now`.  If the raw value equals the memo, nothing happens; otherwise the
memo is set, the (possibly `'like:'`-prefixed) value is pushed to the
column search slot synchronously, and the row redraw timer is
cancelled/rescheduled. -/
def textHandler (serverSide : Bool) (now : Nat) (s : TextState) : TextState :=
  if s.memo = some s.val then s
  else
    let encoded := if serverSide && !s.val.isEmpty then ("like:").data ++ s.val else s.val
    let sch := scheduleRedraw now s.handle s.pending s.nextId
    { s with
      memo := some s.val
      slot := encoded
      searches := s.searches + 1
      handle := sch.1
      pending := sch.2.1
      nextId := sch.2.2 }

/-- The browser firing due timers, lifted to `TextState`. -/
def fireDueT (now : Nat) (s : TextState) : TextState :=
  let pr := fireDuePR now s.pending s.redraws
  { s with pending := pr.1, redraws := pr.2 }

/-- One delivery of an `input`/`change` event carrying raw value `e.2` at
time `e.1`: timers due by then fire first, the input's value becomes
`e.2`, then the bound handler runs. -/
def editText (serverSide : Bool) (e : Nat × List Char) (s : TextState) : TextState :=
  textHandler serverSide e.1 { fireDueT e.1 s with val := e.2 }

/-- A whole sequence of event deliveries. -/
def runText (serverSide : Bool) (es : List (Nat × List Char)) (s : TextState) : TextState :=
  es.foldl (fun s e => editText serverSide e s) s

/-- The end of the run: enough time passes with no further event, so every
still-pending timer fires. -/
def flushText (s : TextState) : TextState :=
  { s with pending := [], redraws := s.redraws ++ s.pending.map Timer.fire }

/-- The freshly rendered text input: empty value, memo never set, empty
search slot, no timer. -/
def initTextState : TextState :=
  { val := [], memo := none, slot := [], searches := 0, handle := none
    pending := [], nextId := 0, redraws := [] }

/-- The spec's text encoding (claims C6/C7 wording): remote and non-empty
gives `'like:' + v`, otherwise the raw value itself (so an empty value
gives the empty predicate). -/
def specTextEncode (remote : Bool) (v : List Char) : List Char :=
  if remote && !v.isEmpty then ("like:").data ++ v else v

/-- Runtime state of one remote-mode number-range filter cell: the two
inputs' values, their two separate `data('val')` memos (both initialized
to the empty string on lines 163–164), the column search slot, the
`search()` call counter and the shared row timer state. -/
structure RangeState where
  fromVal : List Char
  toVal : List Char
  memoF : List Char
  memoT : List Char
  slot : List Char
  searches : Nat
  handle : Option Nat
  pending : List Timer
  nextId : Nat
  redraws : List Nat

/-- Lines 170–173 and 189–192: the combined range expression built from
the two inputs' current values: `'range:' + from + '~' + to` when either
is non-empty, the empty string when both are empty. -/
def rangeEncode (f t : List Char) : List Char :=
  if f ≠ [] ∨ t ≠ [] then ("range:").data ++ f ++ '~' :: t else []

/-- Lines 166–184: the `from` input's server-side `input change` handler,
run at time `now`: build the combined expression from both inputs, and if
it differs from this input's memo, store it in the memo, push it to the
column search slot, and cancel/reschedule the row redraw timer. -/
def fromHandler (now : Nat) (s : RangeState) : RangeState :=
  let val := rangeEncode s.fromVal s.toVal
  if s.memoF = val then s
  else
    let sch := scheduleRedraw now s.handle s.pending s.nextId
    { s with
      memoF := val
      slot := val
      searches := s.searches + 1
      handle := sch.1
      pending := sch.2.1
      nextId := sch.2.2 }

/-- Lines 185–203: the `to` input's server-side handler, symmetric to
`fromHandler` but guarded by the `to` input's own memo. -/
def toHandler (now : Nat) (s : RangeState) : RangeState :=
  let val := rangeEncode s.fromVal s.toVal
  if s.memoT = val then s
  else
    let sch := scheduleRedraw now s.handle s.pending s.nextId
    { s with
      memoT := val
      slot := val
      searches := s.searches + 1
      handle := sch.1
      pending := sch.2.1
      nextId := sch.2.2 }

/-- An edit event on a number-range cell: the user sets the `from` or the
`to` input to a value. -/
inductive REvent where
  | efrom (v : List Char)
  | eto (v : List Char)

/-- The browser firing due timers, lifted to `RangeState`. -/
def fireDueR (now : Nat) (s : RangeState) : RangeState :=
  let pr := fireDuePR now s.pending s.redraws
  { s with pending := pr.1, redraws := pr.2 }

/-- One event delivery on a remote-mode range cell at time `e.1`: due
timers fire, the edited input's value changes, its handler runs. -/
def editRange (e : Nat × REvent) (s : RangeState) : RangeState :=
  match e.2 with
  | .efrom v => fromHandler e.1 { fireDueR e.1 s with fromVal := v }
  | .eto v => toHandler e.1 { fireDueR e.1 s with toVal := v }

/-- A whole sequence of range-cell event deliveries. -/
def runRange (es : List (Nat × REvent)) (s : RangeState) : RangeState :=
  es.foldl (fun s e => editRange e s) s

/-- The freshly rendered range cell: both inputs empty, both memos the
empty string (lines 163–164), empty slot, no timer. -/
def initRangeState : RangeState :=
  { fromVal := [], toVal := [], memoF := [], memoT := [], slot := []
    searches := 0, handle := none, pending := [], nextId := 0, redraws := [] }

/-- The spec's range encoding (claim C5 wording): `'range:' + from + '~' +
to` once either bound is non-empty, the empty string (cleared) when both
are empty. -/
def specRangeEncode (f t : List Char) : List Char :=
  if f ≠ [] ∨ t ≠ [] then ("range:").data ++ f ++ '~' :: t else []

/-- Runtime state of one local-mode number-range cell: the two inputs'
values, the column search slot, and the count of synchronous redraws. -/
structure LocalRangeState where
  fromVal : List Char
  toVal : List Char
  slot : List Char
  redraws : Nat

/-- Lines 218–220: in local mode both range inputs are bound to
`function() { api.draw(); }` — the handler only calls the host redraw,
synchronously; it never touches the column search slot and schedules no
timer (filtering happens through the registered `ext.search` predicate). -/
def localRangeEdit (e : REvent) (s : LocalRangeState) : LocalRangeState :=
  match e with
  | .efrom v => { s with fromVal := v, redraws := s.redraws + 1 }
  | .eto v => { s with toVal := v, redraws := s.redraws + 1 }

/-- A whole sequence of local-mode range edits. -/
def runLocalRange (es : List REvent) (s : LocalRangeState) : LocalRangeState :=
  es.foldl (fun s e => localRangeEdit e s) s

/-- Edit times form an in-window chain after `prev`: each next edit is no
earlier than the previous one and strictly less than 500 time units after
it (so it arrives before the previous redraw timer fires). -/
def chainTimes : Nat → List (Nat × List Char) → Bool
  | _, [] => true
  | prev, (t, _) :: rest => decide (prev ≤ t) && decide (t < prev + 500) && chainTimes t rest

/-- Every edit in the list is effective: its raw value differs from the
memo left by the previous edit (starting from memo `m`). -/
def freshVals : Option (List Char) → List (Nat × List Char) → Bool
  | _, [] => true
  | m, (_, v) :: rest => decide (m ≠ some v) && freshVals (some v) rest

/-- The time of the last edit in the list (`d` when the list is empty). -/
def lastTime : Nat → List (Nat × List Char) → Nat
  | d, [] => d
  | _, (t, _) :: rest => lastTime t rest

/-- No edited bound value in the trace contains the `'~'` separator. -/
def noTildeEvents : List (Nat × REvent) → Bool
  | [] => true
  | (_, .efrom v) :: r => v.all (fun c => decide (c ≠ '~')) && noTildeEvents r
  | (_, .eto v) :: r => v.all (fun c => decide (c ≠ '~')) && noTildeEvents r

/-- Invariant tying a text input's search slot to its current value: the
slot holds the encoding of the value, and the memo is either unset (with
the value still the initial empty string) or records the current value. -/
def TextInv (ss : Bool) (s : TextState) : Prop :=
  s.slot = specTextEncode ss s.val ∧ (s.memo = none ∧ s.val = [] ∨ s.memo = some s.val)

/-- Invariant of a filter row's timer state: at most one pending redraw
timer, its handle is the one stored in the row, and it fires exactly 500
time units after it was scheduled. -/
def TimerInv (handle : Option Nat) (pending : List Timer) : Prop :=
  pending = [] ∨ ∃ tm, pending = [tm] ∧ handle = some tm.id ∧ tm.fire = tm.sched + 500

/-- Invariant of a remote-mode range cell on tilde-free traces: the slot
holds the encoding of the current bounds, the bounds are tilde-free, and
each input's memo is the encoding of the current value of that input with
some (tilde-free) historical value of its sibling. -/
def RangeInv (s : RangeState) : Prop :=
  s.slot = rangeEncode s.fromVal s.toVal
    ∧ '~' ∉ s.fromVal ∧ '~' ∉ s.toVal
    ∧ (∃ th, '~' ∉ th ∧ s.memoF = rangeEncode s.fromVal th)
    ∧ (∃ fh, '~' ∉ fh ∧ s.memoT = rangeEncode fh s.toVal)

/-- Event trace exhibiting the stale-slot corner case of the remote range
cell: the `to` bound once held the value `"b~"`, so the `from` input's
memo holds `"range:a~b~"`; later typing `"a~b"` into the `from` input
(with `to` now empty) re-encodes to the same string, the memo guard
suppresses the push, and the slot keeps the stale `"range:a~"`. -/
def staleTrace : List (Nat × REvent) :=
  [(0, .eto (("b~").data)), (1000, .efrom (("a").data)),
   (2000, .eto []), (3000, .efrom (("a~b").data))]

lemma rangeMatches_eq_spec (f t c : List Char) :
    rangeMatches f t c = specRangeCond (parseBound f) (parseBound t) (cellValue c) := by
  unfold rangeMatches
  cases hm : parseBound f <;> cases hM : parseBound t <;>
    simp [specRangeCond, jsLe, Option.isNone]

/-- C4: the local range evaluator accepts a row exactly under the spec's
four-way condition on the parsed bounds (`','` normalized to `'.'`) and
the parsed cell value (unparseable cell = 0); in particular the five
concrete example evaluations of the claim hold. -/
theorem c4_range_evaluator_spec (f t c : List Char) :
    rangeMatches f t c = specRangeCond (parseBound f) (parseBound t) (cellValue c)
      ∧ rangeMatches [] [] (("5").data) = true
      ∧ rangeMatches (("1").data) [] (("0").data) = false
      ∧ rangeMatches (("1").data) (("10").data) (("5").data) = true
      ∧ rangeMatches (("1").data) (("10").data) (("10.0").data) = true
      ∧ rangeMatches (("1,5").data) [] (("2").data) = true :=
  ⟨rangeMatches_eq_spec f t c, by decide, by decide, by decide, by decide, by decide⟩

/-- C1: evidence of the divergence — the local-mode range predicate
registered for table node `0`, when evaluated during a draw of a
different table node `1`, returns `false` for every row (filtering the
row out), whereas the claim requires it to return `true` (accept). -/
theorem c1_foreign_table_rejected (fromVal toVal cell : List Char) :
    extSearchPredicate 0 fromVal toVal 1 cell = false := rfl

/-- C2: evidence of the divergence — a column whose filter type is
unrecognized makes setup throw a `ReferenceError` (the warning message on
line 226 reads the undeclared identifier `value`), so the error
propagates and the columns after the offending one are never processed,
instead of a non-fatal console warning with setup continuing. -/
theorem c2_unknown_type_throws :
    setupColumns [some .text, some (.other (("foo").data)), some .text]
      = .error (.referenceError (("value").data)) := rfl

lemma regexSpecial_sub_escaped (c : Char) (h : c ∈ regexSpecial) : c ∈ dtEscapedChars := by
  simp only [regexSpecial, List.mem_cons, List.not_mem_nil, or_false] at h
  simp only [dtEscapedChars, List.mem_cons, List.not_mem_nil, or_false]
  tauto

lemma escapeRegex_ne_nil (k : List Char) (h : k ≠ []) : escapeRegex k ≠ [] := by
  cases k with
  | nil => exact absurd rfl h
  | cons c r =>
    unfold escapeRegex
    split <;> simp

lemma parseLits_escapeRegex (k : List Char) : parseLits (escapeRegex k) = some k := by
  induction k with
  | nil => rfl
  | cons c r ih =>
    unfold escapeRegex
    by_cases hc : c ∈ dtEscapedChars
    · simp [hc, parseLits, ih]
    · have hb : c ≠ '\\' := by
        intro he
        exact hc (he ▸ (by simp [dtEscapedChars]))
      have hs : c ∉ regexSpecial := fun h => hc (regexSpecial_sub_escaped c h)
      rw [if_neg hc]
      show parseLits (c :: escapeRegex r) = some (c :: r)
      unfold parseLits
      rw [if_neg hb, if_neg hs, ih]
      rfl

lemma litsMatch_eq_decide (l s : List Char) : litsMatch l s = decide (l = s) := by
  induction l generalizing s with
  | nil => cases s <;> simp [litsMatch]
  | cons a as ih => cases s <;> simp [litsMatch, ih]

lemma anchoredLitMatch_escape (k s : List Char) :
    anchoredLitMatch ('^' :: (escapeRegex k ++ ['$'])) s = some (decide (s = k)) := by
  simp [anchoredLitMatch, List.getLast?_concat, List.dropLast_concat,
    parseLits_escapeRegex, litsMatch_eq_decide, eq_comm]

/-- C3 (counterexample): for the key `"a.b"` the remote-mode encoding
produced by the select handler is `"equals:a\.b"` — the raw key is
regex-escaped on line 138 before `'equals:'` is prepended on line 142 —
and not `"equals:" + k = "equals:a.b"` as the claim states. -/
theorem c3_remote_encoding_counterexample :
    selectEncode true (("a.b").data) ≠ ("equals:").data ++ ("a.b").data := by decide

/-- C3 (amended): for every non-empty select key `k` the remote encoding
is `"equals:" + escape(k)` (the key is regex-escaped before encoding in
both modes); the local encoding is `"^" + escape(k) + "$"`, and that
anchored expression matches a subject `s` exactly when `s = k` — in
particular it rejects `k` with any non-empty prefix or suffix attached;
an empty key yields the empty predicate in both modes. -/
theorem c3_select_encoding_amended (k s x : List Char) (hk : k ≠ []) (hx : x ≠ []) :
    selectEncode true k = ("equals:").data ++ escapeRegex k
      ∧ selectEncode false k = '^' :: (escapeRegex k ++ ['$'])
      ∧ anchoredLitMatch (selectEncode false k) s = some (decide (s = k))
      ∧ anchoredLitMatch (selectEncode false k) (x ++ k) = some false
      ∧ anchoredLitMatch (selectEncode false k) (k ++ x) = some false
      ∧ selectEncode true [] = [] ∧ selectEncode false [] = [] := by
  have hek : escapeRegex k ≠ [] := escapeRegex_ne_nil k hk
  have hloc : selectEncode false k = '^' :: (escapeRegex k ++ ['$']) := by
    simp [selectEncode, hek]
  have hxk : ¬ (x ++ k = k) := by
    intro h
    have hlen := congrArg List.length h
    simp only [List.length_append] at hlen
    exact hx (List.length_eq_zero.mp (by omega))
  have hkx : ¬ (k ++ x = k) := by
    intro h
    have hlen := congrArg List.length h
    simp only [List.length_append] at hlen
    exact hx (List.length_eq_zero.mp (by omega))
  refine ⟨by simp [selectEncode, hek], hloc, ?_, ?_, ?_, rfl, rfl⟩
  · rw [hloc, anchoredLitMatch_escape]
  · rw [hloc, anchoredLitMatch_escape]
    simp [hxk]
  · rw [hloc, anchoredLitMatch_escape]
    simp [hkx]

/-- Witness for `c3_select_encoding_amended` at the concrete key `"a.b"`,
subject `"a.b"` and extra string `"z"`. -/
theorem c3_select_encoding_witness :
    (("a.b").data ≠ ([] : List Char)) ∧ (("z").data ≠ ([] : List Char))
      ∧ (selectEncode true (("a.b").data) = ("equals:").data ++ escapeRegex (("a.b").data)
      ∧ selectEncode false (("a.b").data) = '^' :: (escapeRegex (("a.b").data) ++ ['$'])
      ∧ anchoredLitMatch (selectEncode false (("a.b").data)) (("a.b").data)
          = some (decide ((("a.b").data) = (("a.b").data)))
      ∧ anchoredLitMatch (selectEncode false (("a.b").data)) (("z").data ++ ("a.b").data) = some false
      ∧ anchoredLitMatch (selectEncode false (("a.b").data)) (("a.b").data ++ ("z").data) = some false
      ∧ selectEncode true [] = [] ∧ selectEncode false [] = []) :=
  ⟨by decide, by decide,
    c3_select_encoding_amended (("a.b").data) (("a.b").data) (("z").data) (by decide) (by decide)⟩

lemma textHandler_skip (ss : Bool) (now : Nat) (s : TextState) (h : s.memo = some s.val) :
    textHandler ss now s = s := by
  unfold textHandler
  rw [if_pos h]

lemma textHandler_run (ss : Bool) (now : Nat) (s : TextState) (h : ¬ s.memo = some s.val) :
    (textHandler ss now s).val = s.val
      ∧ (textHandler ss now s).memo = some s.val
      ∧ (textHandler ss now s).slot = specTextEncode ss s.val
      ∧ (textHandler ss now s).searches = s.searches + 1
      ∧ (textHandler ss now s).handle = some s.nextId
      ∧ (textHandler ss now s).pending
          = (scheduleRedraw now s.handle s.pending s.nextId).2.1
      ∧ (textHandler ss now s).nextId = s.nextId + 1
      ∧ (textHandler ss now s).redraws = s.redraws := by
  unfold textHandler
  rw [if_neg h]
  exact ⟨rfl, rfl, rfl, rfl, rfl, rfl, rfl, rfl⟩

lemma textInv_step (ss : Bool) (e : Nat × List Char) (s : TextState) (h : TextInv ss s) :
    TextInv ss (editText ss e s) := by
  obtain ⟨hslot, hmemo⟩ := h
  have hval : ({ fireDueT e.1 s with val := e.2 } : TextState).val = e.2 := rfl
  have hmm : ({ fireDueT e.1 s with val := e.2 } : TextState).memo = s.memo := rfl
  show TextInv ss (textHandler ss e.1 { fireDueT e.1 s with val := e.2 })
  by_cases hm : s.memo = some e.2
  · rw [textHandler_skip ss e.1 _ (by rw [hval, hmm]; exact hm)]
    refine ⟨?_, Or.inr (by rw [hval, hmm]; exact hm)⟩
    show s.slot = specTextEncode ss e.2
    rcases hmemo with ⟨hn, _⟩ | hv
    · rw [hn] at hm; cases hm
    · rw [hv] at hm
      rw [hslot, Option.some.inj hm]
  · obtain ⟨h1, h2, h3, _⟩ := textHandler_run ss e.1 _ (by rw [hval, hmm]; exact hm)
    exact ⟨by rw [h3, h1], Or.inr (by rw [h2, h1])⟩

lemma runText_inv (ss : Bool) (es : List (Nat × List Char)) (s : TextState) (h : TextInv ss s) :
    TextInv ss (runText ss es s) := by
  induction es generalizing s with
  | nil => exact h
  | cons e rest ih => exact ih (editText ss e s) (textInv_step ss e s h)

/-- C6: after any sequence of text-input event deliveries starting from a
fresh input, the column search slot holds exactly the claim's encoding of
the input's current value: `"like:" + v` remotely for non-empty `v`, the
raw `v` locally, and the empty predicate for an empty value. -/
theorem c6_text_encoding (ss : Bool) (es : List (Nat × List Char)) :
    (runText ss es initTextState).slot = specTextEncode ss (runText ss es initTextState).val :=
  (runText_inv ss es initTextState ⟨by cases ss <;> rfl, Or.inl ⟨rfl, rfl⟩⟩).1

/-- C10: in local number-range mode the component never writes the
per-column search slot (it is unchanged by any sequence of edits to the
two range inputs), and every edit triggers exactly one synchronous host
redraw — the model has no timer at all, mirroring the handler
`function() { api.draw(); }` bound on lines 218–220. -/
theorem c10_local_range_frame (es : List REvent) (s : LocalRangeState) :
    (runLocalRange es s).slot = s.slot
      ∧ (runLocalRange es s).redraws = s.redraws + es.length := by
  induction es generalizing s with
  | nil => exact ⟨rfl, rfl⟩
  | cons e rest ih =>
    obtain ⟨h1, h2⟩ := ih (localRangeEdit e s)
    have hstep : runLocalRange (e :: rest) s = runLocalRange rest (localRangeEdit e s) := rfl
    constructor
    · rw [hstep, h1]; cases e <;> rfl
    · rw [hstep, h2]; cases e <;> (simp only [localRangeEdit, List.length_cons]; omega)

lemma timerInv_fire (now : Nat) (h : Option Nat) (p : List Timer) (hi : TimerInv h p) :
    TimerInv h (p.filter (fun tm => !decide (tm.fire ≤ now))) := by
  rcases hi with hnil | ⟨tm, hp, hh, hf⟩
  · left; rw [hnil]; rfl
  · rw [hp]
    by_cases hd : tm.fire ≤ now
    · left; simp [List.filter, hd]
    · right; exact ⟨tm, by simp [List.filter, hd], hh, hf⟩

lemma timerInv_sched (now : Nat) (h : Option Nat) (p : List Timer) (n : Nat) (hi : TimerInv h p) :
    TimerInv (scheduleRedraw now h p n).1 (scheduleRedraw now h p n).2.1 := by
  right
  refine ⟨⟨n, now, now + 500⟩, ?_, rfl, rfl⟩
  show (match h with
    | some h0 => clearTimeout h0 p
    | none => p) ++ [⟨n, now, now + 500⟩] = [⟨n, now, now + 500⟩]
  rcases hi with hnil | ⟨tm, hp, hh, _⟩
  · rw [hnil]; cases h <;> simp [clearTimeout]
  · rw [hp, hh]
    simp [clearTimeout, List.filter]

lemma timerInv_le (h : Option Nat) (p : List Timer) (hi : TimerInv h p) :
    p.length ≤ 1 ∧ p.all (fun tm => decide (tm.fire ≤ tm.sched + 500)) = true := by
  rcases hi with hnil | ⟨tm, hp, _, hf⟩
  · rw [hnil]; exact ⟨by simp, rfl⟩
  · rw [hp]
    refine ⟨by simp, ?_⟩
    simp [hf]

lemma textHandlerTimer (ss : Bool) (now : Nat) (s : TextState)
    (hi : TimerInv s.handle s.pending) :
    TimerInv (textHandler ss now s).handle (textHandler ss now s).pending := by
  by_cases hm : s.memo = some s.val
  · rw [textHandler_skip ss now s hm]; exact hi
  · obtain ⟨_, _, _, _, h5, h6, _, _⟩ := textHandler_run ss now s hm
    rw [h5, h6]
    exact timerInv_sched now s.handle s.pending s.nextId hi

lemma editTextTimer (ss : Bool) (e : Nat × List Char) (s : TextState)
    (hi : TimerInv s.handle s.pending) :
    TimerInv (editText ss e s).handle (editText ss e s).pending := by
  show TimerInv (textHandler ss e.1 { fireDueT e.1 s with val := e.2 }).handle
    (textHandler ss e.1 { fireDueT e.1 s with val := e.2 }).pending
  exact textHandlerTimer ss e.1 _ (timerInv_fire e.1 s.handle s.pending hi)

lemma runTextTimer (ss : Bool) (es : List (Nat × List Char)) (s : TextState)
    (hi : TimerInv s.handle s.pending) :
    TimerInv (runText ss es s).handle (runText ss es s).pending := by
  induction es generalizing s with
  | nil => exact hi
  | cons e rest ih => exact ih (editText ss e s) (editTextTimer ss e s hi)

lemma fromHandler_skip (now : Nat) (s : RangeState)
    (h : s.memoF = rangeEncode s.fromVal s.toVal) :
    fromHandler now s = s := by
  unfold fromHandler
  rw [if_pos h]

lemma fromHandler_run (now : Nat) (s : RangeState)
    (h : ¬ s.memoF = rangeEncode s.fromVal s.toVal) :
    (fromHandler now s).fromVal = s.fromVal
      ∧ (fromHandler now s).toVal = s.toVal
      ∧ (fromHandler now s).memoF = rangeEncode s.fromVal s.toVal
      ∧ (fromHandler now s).memoT = s.memoT
      ∧ (fromHandler now s).slot = rangeEncode s.fromVal s.toVal
      ∧ (fromHandler now s).searches = s.searches + 1
      ∧ (fromHandler now s).handle = some s.nextId
      ∧ (fromHandler now s).pending = (scheduleRedraw now s.handle s.pending s.nextId).2.1
      ∧ (fromHandler now s).nextId = s.nextId + 1
      ∧ (fromHandler now s).redraws = s.redraws := by
  unfold fromHandler
  rw [if_neg h]
  exact ⟨rfl, rfl, rfl, rfl, rfl, rfl, rfl, rfl, rfl, rfl⟩

lemma toHandler_skip (now : Nat) (s : RangeState)
    (h : s.memoT = rangeEncode s.fromVal s.toVal) :
    toHandler now s = s := by
  unfold toHandler
  rw [if_pos h]

lemma toHandler_run (now : Nat) (s : RangeState)
    (h : ¬ s.memoT = rangeEncode s.fromVal s.toVal) :
    (toHandler now s).fromVal = s.fromVal
      ∧ (toHandler now s).toVal = s.toVal
      ∧ (toHandler now s).memoF = s.memoF
      ∧ (toHandler now s).memoT = rangeEncode s.fromVal s.toVal
      ∧ (toHandler now s).slot = rangeEncode s.fromVal s.toVal
      ∧ (toHandler now s).searches = s.searches + 1
      ∧ (toHandler now s).handle = some s.nextId
      ∧ (toHandler now s).pending = (scheduleRedraw now s.handle s.pending s.nextId).2.1
      ∧ (toHandler now s).nextId = s.nextId + 1
      ∧ (toHandler now s).redraws = s.redraws := by
  unfold toHandler
  rw [if_neg h]
  exact ⟨rfl, rfl, rfl, rfl, rfl, rfl, rfl, rfl, rfl, rfl⟩

lemma fromHandlerTimer (now : Nat) (s : RangeState)
    (hi : TimerInv s.handle s.pending) :
    TimerInv (fromHandler now s).handle (fromHandler now s).pending := by
  by_cases hm : s.memoF = rangeEncode s.fromVal s.toVal
  · rw [fromHandler_skip now s hm]; exact hi
  · obtain ⟨_, _, _, _, _, _, h7, h8, _, _⟩ := fromHandler_run now s hm
    rw [h7, h8]
    exact timerInv_sched now s.handle s.pending s.nextId hi

lemma toHandlerTimer (now : Nat) (s : RangeState)
    (hi : TimerInv s.handle s.pending) :
    TimerInv (toHandler now s).handle (toHandler now s).pending := by
  by_cases hm : s.memoT = rangeEncode s.fromVal s.toVal
  · rw [toHandler_skip now s hm]; exact hi
  · obtain ⟨_, _, _, _, _, _, h7, h8, _, _⟩ := toHandler_run now s hm
    rw [h7, h8]
    exact timerInv_sched now s.handle s.pending s.nextId hi

lemma editRangeTimer (e : Nat × REvent) (s : RangeState)
    (hi : TimerInv s.handle s.pending) :
    TimerInv (editRange e s).handle (editRange e s).pending := by
  obtain ⟨t, ev⟩ := e
  cases ev with
  | efrom v =>
    show TimerInv (fromHandler t { fireDueR t s with fromVal := v }).handle
      (fromHandler t { fireDueR t s with fromVal := v }).pending
    exact fromHandlerTimer t _ (timerInv_fire t s.handle s.pending hi)
  | eto v =>
    show TimerInv (toHandler t { fireDueR t s with toVal := v }).handle
      (toHandler t { fireDueR t s with toVal := v }).pending
    exact toHandlerTimer t _ (timerInv_fire t s.handle s.pending hi)

lemma runRangeTimer (es : List (Nat × REvent)) (s : RangeState)
    (hi : TimerInv s.handle s.pending) :
    TimerInv (runRange es s).handle (runRange es s).pending := by
  induction es generalizing s with
  | nil => exact hi
  | cons e rest ih => exact ih (editRange e s) (editRangeTimer e s hi)

/-- C9: after any sequence of events on a text filter row or a remote
range filter row, at most one redraw timer is pending (scheduling always
clears the stored handle first, replacing any outstanding timer), and
every pending timer fires no more than 500 time units after it was
scheduled. -/
theorem c9_one_pending_timer (ss : Bool) (es : List (Nat × List Char))
    (res : List (Nat × REvent)) :
    ((runText ss es initTextState).pending.length ≤ 1
      ∧ (runText ss es initTextState).pending.all
          (fun tm => decide (tm.fire ≤ tm.sched + 500)) = true)
      ∧ ((runRange res initRangeState).pending.length ≤ 1
      ∧ (runRange res initRangeState).pending.all
          (fun tm => decide (tm.fire ≤ tm.sched + 500)) = true) :=
  ⟨timerInv_le _ _ (runTextTimer ss es initTextState (Or.inl rfl)),
   timerInv_le _ _ (runRangeTimer res initRangeState (Or.inl rfl))⟩

/-- C7: delivering the same raw value twice in a row to a text filter
input (as with duplicate native `input` and `change` events for one
edit) performs exactly one search-slot update (`searches` grows by one)
and schedules exactly one redraw timer (`nextId` grows by one); the
second delivery leaves the state completely unchanged — no state
transition and no host notification. -/
theorem c7_duplicate_event_idempotent (ss : Bool) (t : Nat) (v : List Char)
    (s : TextState) (h : s.memo ≠ some v) :
    editText ss (t, v) (editText ss (t, v) s) = editText ss (t, v) s
      ∧ (editText ss (t, v) s).searches = s.searches + 1
      ∧ (editText ss (t, v) s).nextId = s.nextId + 1 := by
  have hstep : editText ss (t, v) s
      = textHandler ss t { fireDueT t s with val := v } := rfl
  have hm : ¬ ({ fireDueT t s with val := v } : TextState).memo
      = some ({ fireDueT t s with val := v } : TextState).val := h
  obtain ⟨h1, h2, _, h4, _, h6, h7, _⟩ := textHandler_run ss t _ hm
  have hsp : ({ fireDueT t s with val := v } : TextState).pending
      = s.pending.filter (fun tm => !decide (tm.fire ≤ t)) := rfl
  refine ⟨?_, h4, h7⟩
  set s1 := textHandler ss t { fireDueT t s with val := v } with hs1
  have hmem : ∀ tm ∈ s1.pending, t < tm.fire := by
    rw [h6]
    intro tm htm
    unfold scheduleRedraw at htm
    rcases List.mem_append.mp htm with hin | hin
    · have htm2 : tm ∈ ({ fireDueT t s with val := v } : TextState).pending := by
        revert hin
        cases ({ fireDueT t s with val := v } : TextState).handle with
        | none => exact fun hin => hin
        | some h0 => exact fun hin => (List.mem_filter.mp hin).1
      rw [hsp] at htm2
      have hprop := (List.mem_filter.mp htm2).2
      simp only [Bool.not_eq_true', decide_eq_false_iff_not, Nat.not_le] at hprop
      exact hprop
    · have : tm = ⟨({ fireDueT t s with val := v } : TextState).nextId, t, t + 500⟩ := by
        simpa using hin
      rw [this]
      show t < t + 500
      omega
  have hfd : fireDueT t s1 = s1 := by
    show ({ s1 with
      pending := (fireDuePR t s1.pending s1.redraws).1
      redraws := (fireDuePR t s1.pending s1.redraws).2 } : TextState) = s1
    unfold fireDuePR
    rw [List.filter_eq_self.mpr (fun tm htm => by
        simp only [Bool.not_eq_true', decide_eq_false_iff_not, Nat.not_le]
        exact hmem tm htm),
      List.filter_eq_nil_iff.mpr (fun tm htm => by
        simp only [decide_eq_true_eq, Nat.not_le]
        exact hmem tm htm),
      List.map_nil, List.append_nil]
  have h1e : s1.val = v := h1
  have h2e : s1.memo = some v := h2
  have hv1 : ({ s1 with val := v } : TextState) = s1 := by
    rw [← h1e]
  show textHandler ss t { fireDueT t s1 with val := v } = s1
  rw [hfd, hv1]
  exact textHandler_skip ss t s1 (by rw [h2e, h1e])

/-- Witness for `c7_duplicate_event_idempotent`: a fresh input receives
the value `"a"` twice at time 0. -/
theorem c7_duplicate_event_witness :
    (initTextState.memo ≠ some (("a").data))
      ∧ (editText true (0, ("a").data) (editText true (0, ("a").data) initTextState)
          = editText true (0, ("a").data) initTextState
      ∧ (editText true (0, ("a").data) initTextState).searches = initTextState.searches + 1
      ∧ (editText true (0, ("a").data) initTextState).nextId = initTextState.nextId + 1) :=
  ⟨by decide, c7_duplicate_event_idempotent true 0 (("a").data) initTextState (by decide)⟩

lemma fireDueT_id (now : Nat) (s : TextState) (h : ∀ tm ∈ s.pending, now < tm.fire) :
    fireDueT now s = s := by
  show ({ s with
    pending := (fireDuePR now s.pending s.redraws).1
    redraws := (fireDuePR now s.pending s.redraws).2 } : TextState) = s
  unfold fireDuePR
  rw [List.filter_eq_self.mpr (fun tm htm => by
      simp only [Bool.not_eq_true', decide_eq_false_iff_not, Nat.not_le]
      exact h tm htm),
    List.filter_eq_nil_iff.mpr (fun tm htm => by
      simp only [decide_eq_true_eq, Nat.not_le]
      exact h tm htm),
    List.map_nil, List.append_nil]

lemma runText_chain (ss : Bool) (rest : List (Nat × List Char)) :
    ∀ (pt hdl : Nat) (pv : List Char) (s : TextState),
      chainTimes pt rest = true →
      freshVals (some pv) rest = true →
      s.memo = some pv →
      s.handle = some hdl →
      s.pending = [⟨hdl, pt, pt + 500⟩] →
      ∃ hdl2,
        (runText ss rest s).pending = [⟨hdl2, lastTime pt rest, lastTime pt rest + 500⟩]
          ∧ (runText ss rest s).redraws = s.redraws
          ∧ (runText ss rest s).searches = s.searches + rest.length := by
  induction rest with
  | nil =>
    intro pt hdl pv s _ _ _ _ hp
    exact ⟨hdl, by rw [show runText ss [] s = s from rfl, hp]; rfl, rfl, rfl⟩
  | cons e rest ih =>
    obtain ⟨t, v⟩ := e
    intro pt hdl pv s hc hf hmemo hh hp
    simp only [chainTimes, Bool.and_eq_true, decide_eq_true_eq] at hc
    obtain ⟨⟨hle, hlt⟩, hcrest⟩ := hc
    simp only [freshVals, Bool.and_eq_true, decide_eq_true_eq] at hf
    obtain ⟨hne, hfrest⟩ := hf
    have hfd : fireDueT t s = s := by
      refine fireDueT_id t s ?_
      intro tm htm
      rw [hp] at htm
      have : tm = ⟨hdl, pt, pt + 500⟩ := by simpa using htm
      rw [this]
      show t < pt + 500
      omega
    have hrec : ({ fireDueT t s with val := v } : TextState) = { s with val := v } := by
      rw [hfd]
    have hstep : runText ss ((t, v) :: rest) s
        = runText ss rest (textHandler ss t { s with val := v }) := by
      show runText ss rest (textHandler ss t { fireDueT t s with val := v })
        = runText ss rest (textHandler ss t { s with val := v })
      rw [hrec]
    have hm : ¬ ({ s with val := v } : TextState).memo
        = some ({ s with val := v } : TextState).val := by
      show ¬ s.memo = some v
      rw [hmemo]
      exact hne
    obtain ⟨_, h2, _, h4, h5, h6, _, h8⟩ := textHandler_run ss t _ hm
    have h2e : (textHandler ss t { s with val := v }).memo = some v := h2
    have h4e : (textHandler ss t { s with val := v }).searches = s.searches + 1 := h4
    have h5e : (textHandler ss t { s with val := v }).handle = some s.nextId := h5
    have h8e : (textHandler ss t { s with val := v }).redraws = s.redraws := h8
    have h6e : (textHandler ss t { s with val := v }).pending
        = [⟨s.nextId, t, t + 500⟩] := by
      have h6x : (textHandler ss t { s with val := v }).pending
          = (scheduleRedraw t s.handle s.pending s.nextId).2.1 := h6
      rw [h6x, hh, hp]
      simp [scheduleRedraw, clearTimeout]
    obtain ⟨hdl2, hpend2, hred2, hsea2⟩ :=
      ih t s.nextId v (textHandler ss t { s with val := v }) hcrest hfrest h2e h5e h6e
    refine ⟨hdl2, ?_, ?_, ?_⟩
    · rw [hstep]
      exact hpend2
    · rw [hstep, hred2, h8e]
    · rw [hstep, hsea2, h4e]
      simp only [List.length_cons]
      omega

/-- C8: a burst of `N ≥ 1` effective edits to the same text input, each
arriving within 500 time units of the previous one, produces exactly one
redraw, fired 500 time units after the last edit; the per-column search
slot is updated synchronously on every one of the `N` edits (the
`searches` counter equals `N`), never debounced. -/
theorem c8_debounce_single_redraw (ss : Bool) (t1 : Nat) (v1 : List Char)
    (rest : List (Nat × List Char))
    (hc : chainTimes t1 rest = true) (hf : freshVals (some v1) rest = true) :
    (flushText (runText ss ((t1, v1) :: rest) initTextState)).redraws
        = [lastTime t1 rest + 500]
      ∧ (flushText (runText ss ((t1, v1) :: rest) initTextState)).searches
        = ((t1, v1) :: rest).length := by
  have hfd : fireDueT t1 initTextState = initTextState :=
    fireDueT_id t1 initTextState (by intro tm htm; cases htm)
  have hrec : ({ fireDueT t1 initTextState with val := v1 } : TextState)
      = { initTextState with val := v1 } := by
    rw [hfd]
  have hstep : runText ss ((t1, v1) :: rest) initTextState
      = runText ss rest (textHandler ss t1 { initTextState with val := v1 }) := by
    show runText ss rest (textHandler ss t1 { fireDueT t1 initTextState with val := v1 })
      = runText ss rest (textHandler ss t1 { initTextState with val := v1 })
    rw [hrec]
  have hm : ¬ ({ initTextState with val := v1 } : TextState).memo
      = some ({ initTextState with val := v1 } : TextState).val := by
    show ¬ (none : Option (List Char)) = some v1
    simp
  obtain ⟨_, h2, _, h4, h5, h6, _, h8⟩ := textHandler_run ss t1 _ hm
  have h2e : (textHandler ss t1 { initTextState with val := v1 }).memo = some v1 := h2
  have h4e : (textHandler ss t1 { initTextState with val := v1 }).searches = 1 := h4
  have h5e : (textHandler ss t1 { initTextState with val := v1 }).handle = some 0 := h5
  have h8e : (textHandler ss t1 { initTextState with val := v1 }).redraws = [] := h8
  have h6e : (textHandler ss t1 { initTextState with val := v1 }).pending
      = [⟨0, t1, t1 + 500⟩] := h6
  obtain ⟨hdl2, hpend2, hred2, hsea2⟩ :=
    runText_chain ss rest t1 0 v1 (textHandler ss t1 { initTextState with val := v1 })
      hc hf h2e h5e h6e
  constructor
  · show (runText ss ((t1, v1) :: rest) initTextState).redraws
      ++ (runText ss ((t1, v1) :: rest) initTextState).pending.map Timer.fire
      = [lastTime t1 rest + 500]
    rw [hstep, hpend2, hred2, h8e]
    rfl
  · show (runText ss ((t1, v1) :: rest) initTextState).searches = ((t1, v1) :: rest).length
    rw [hstep, hsea2, h4e]
    simp only [List.length_cons]
    omega

/-- Witness for `c8_debounce_single_redraw`: two edits (`"a"` at time 0,
`"ab"` at time 100) coalesce into the single redraw at time 600, with two
synchronous search-slot updates. -/
theorem c8_debounce_witness :
    (chainTimes 0 [(100, ("ab").data)] = true)
      ∧ (freshVals (some (("a").data)) [(100, ("ab").data)] = true)
      ∧ ((flushText (runText true [(0, ("a").data), (100, ("ab").data)] initTextState)).redraws
          = [lastTime 0 [(100, ("ab").data)] + 500]
      ∧ (flushText (runText true [(0, ("a").data), (100, ("ab").data)] initTextState)).searches
          = [(0, ("a").data), (100, ("ab").data)].length) :=
  ⟨by decide, by decide,
    c8_debounce_single_redraw true 0 (("a").data) [(100, ("ab").data)] (by decide) (by decide)⟩

lemma sep_cons_append_inj (sep : Char) (a : List Char) :
    ∀ (c b d : List Char), sep ∉ a → sep ∉ c →
      a ++ sep :: b = c ++ sep :: d → a = c ∧ b = d := by
  induction a with
  | nil =>
    intro c b d _ hc h
    cases c with
    | nil => simpa using h
    | cons y c' =>
      simp only [List.nil_append, List.cons_append, List.cons.injEq] at h
      exact absurd (by rw [h.1]; exact List.mem_cons_self y c') hc
  | cons x a' ih =>
    intro c b d ha hc h
    cases c with
    | nil =>
      simp only [List.cons_append, List.nil_append, List.cons.injEq] at h
      exact absurd (by rw [← h.1]; exact List.mem_cons_self x a') ha
    | cons y c' =>
      simp only [List.cons_append, List.cons.injEq] at h
      obtain ⟨hxy, hrest⟩ := h
      have ha' : sep ∉ a' := fun hm => ha (List.mem_cons_of_mem x hm)
      have hc' : sep ∉ c' := fun hm => hc (List.mem_cons_of_mem y hm)
      obtain ⟨h1, h2⟩ := ih c' b d ha' hc' hrest
      exact ⟨by rw [hxy, h1], h2⟩

lemma rangeEncode_inj (a b c d : List Char) (ha : '~' ∉ a) (hc : '~' ∉ c)
    (h : rangeEncode a b = rangeEncode c d) : a = c ∧ b = d := by
  have hpre : (("range:").data) = ['r', 'a', 'n', 'g', 'e', ':'] := rfl
  unfold rangeEncode at h
  by_cases h1 : a ≠ [] ∨ b ≠ []
  · rw [if_pos h1] at h
    by_cases h2 : c ≠ [] ∨ d ≠ []
    · rw [if_pos h2] at h
      rw [List.append_assoc, List.append_assoc] at h
      exact sep_cons_append_inj '~' a c b d ha hc (List.append_cancel_left h)
    · rw [if_neg h2] at h
      rw [hpre] at h
      simp at h
  · rw [if_neg h1] at h
    push_neg at h1
    by_cases h2 : c ≠ [] ∨ d ≠ []
    · rw [if_pos h2] at h
      rw [hpre] at h
      simp at h
    · push_neg at h2
      exact ⟨h1.1.trans h2.1.symm, h1.2.trans h2.2.symm⟩

lemma rangeInv_efrom (t : Nat) (v : List Char) (s : RangeState)
    (hv : '~' ∉ v) (hi : RangeInv s) :
    RangeInv (fromHandler t { fireDueR t s with fromVal := v }) := by
  obtain ⟨hslot, hnf, hnt, ⟨th, hth, hmf⟩, ⟨fh, hfh, hmt⟩⟩ := hi
  by_cases hm : s.memoF = rangeEncode v s.toVal
  · rw [fromHandler_skip t ({ fireDueR t s with fromVal := v }) hm]
    obtain ⟨hfv, -⟩ := rangeEncode_inj s.fromVal th v s.toVal hnf hv (hmf.symm.trans hm)
    refine ⟨?_, hv, hnt, ⟨s.toVal, hnt, hm⟩, ⟨fh, hfh, hmt⟩⟩
    show s.slot = rangeEncode v s.toVal
    rw [hslot, hfv]
  · obtain ⟨p1, p2, p3, p4, p5, -, -, -, -, -⟩ :=
      fromHandler_run t ({ fireDueR t s with fromVal := v }) hm
    have p1e : (fromHandler t { fireDueR t s with fromVal := v }).fromVal = v := p1
    have p2e : (fromHandler t { fireDueR t s with fromVal := v }).toVal = s.toVal := p2
    have p3e : (fromHandler t { fireDueR t s with fromVal := v }).memoF
        = rangeEncode v s.toVal := p3
    have p4e : (fromHandler t { fireDueR t s with fromVal := v }).memoT = s.memoT := p4
    have p5e : (fromHandler t { fireDueR t s with fromVal := v }).slot
        = rangeEncode v s.toVal := p5
    refine ⟨?_, ?_, ?_, ?_, ?_⟩
    · rw [p5e, p1e, p2e]
    · rw [p1e]; exact hv
    · rw [p2e]; exact hnt
    · exact ⟨s.toVal, hnt, by rw [p3e, p1e]⟩
    · exact ⟨fh, hfh, by rw [p4e, p2e, hmt]⟩

lemma rangeInv_eto (t : Nat) (v : List Char) (s : RangeState)
    (hv : '~' ∉ v) (hi : RangeInv s) :
    RangeInv (toHandler t { fireDueR t s with toVal := v }) := by
  obtain ⟨hslot, hnf, hnt, ⟨th, hth, hmf⟩, ⟨fh, hfh, hmt⟩⟩ := hi
  by_cases hm : s.memoT = rangeEncode s.fromVal v
  · rw [toHandler_skip t ({ fireDueR t s with toVal := v }) hm]
    obtain ⟨hfv, htv⟩ := rangeEncode_inj fh s.toVal s.fromVal v hfh hnf (hmt.symm.trans hm)
    refine ⟨?_, hnf, hv, ⟨th, hth, hmf⟩, ⟨s.fromVal, hnf, hm⟩⟩
    show s.slot = rangeEncode s.fromVal v
    rw [hslot, htv]
  · obtain ⟨p1, p2, p3, p4, p5, -, -, -, -, -⟩ :=
      toHandler_run t ({ fireDueR t s with toVal := v }) hm
    have p1e : (toHandler t { fireDueR t s with toVal := v }).fromVal = s.fromVal := p1
    have p2e : (toHandler t { fireDueR t s with toVal := v }).toVal = v := p2
    have p3e : (toHandler t { fireDueR t s with toVal := v }).memoF = s.memoF := p3
    have p4e : (toHandler t { fireDueR t s with toVal := v }).memoT
        = rangeEncode s.fromVal v := p4
    have p5e : (toHandler t { fireDueR t s with toVal := v }).slot
        = rangeEncode s.fromVal v := p5
    refine ⟨?_, ?_, ?_, ?_, ?_⟩
    · rw [p5e, p1e, p2e]
    · rw [p1e]; exact hnf
    · rw [p2e]; exact hv
    · exact ⟨th, hth, by rw [p3e, p1e, hmf]⟩
    · exact ⟨s.fromVal, hnf, by rw [p4e, p2e]⟩

lemma runRange_inv (es : List (Nat × REvent)) (s : RangeState)
    (hnt : noTildeEvents es = true) (hi : RangeInv s) : RangeInv (runRange es s) := by
  induction es generalizing s with
  | nil => exact hi
  | cons e rest ih =>
    obtain ⟨t, ev⟩ := e
    cases ev with
    | efrom v =>
      simp only [noTildeEvents, Bool.and_eq_true] at hnt
      obtain ⟨hva, hrest⟩ := hnt
      have hv : '~' ∉ v := by
        intro hmem
        have := List.all_eq_true.mp hva _ hmem
        simp at this
      exact ih (editRange (t, .efrom v) s) hrest (rangeInv_efrom t v s hv hi)
    | eto v =>
      simp only [noTildeEvents, Bool.and_eq_true] at hnt
      obtain ⟨hva, hrest⟩ := hnt
      have hv : '~' ∉ v := by
        intro hmem
        have := List.all_eq_true.mp hva _ hmem
        simp at this
      exact ih (editRange (t, .eto v) s) hrest (rangeInv_eto t v s hv hi)

/-- C5 (counterexample): after the trace `staleTrace` the two bounds are
`("a~b", "")` — at least one non-empty — yet the column search slot holds
the stale `"range:a~"` instead of `"range:" + from + "~" + to =
"range:a~b~"`: the memo comparison of line 174 conflated two different
bound pairs whose encodings collide on the `'~'` separator and skipped
the push. -/
theorem c5_stale_slot_counterexample :
    ((runRange staleTrace initRangeState).fromVal ≠ []
        ∨ (runRange staleTrace initRangeState).toVal ≠ [])
      ∧ (runRange staleTrace initRangeState).slot
        ≠ ("range:").data ++ (runRange staleTrace initRangeState).fromVal
          ++ '~' :: (runRange staleTrace initRangeState).toVal := by
  decide

/-- C5 (amended): provided no entered bound value contains the separator
character `'~'`, after any sequence of edits to a remote-mode range cell
the column search slot holds exactly `"range:" + from + "~" + to`
whenever at least one bound is non-empty, and the empty string (cleared)
when both bounds are empty. -/
theorem c5_range_slot_amended (es : List (Nat × REvent))
    (hnt : noTildeEvents es = true) :
    (runRange es initRangeState).slot
      = specRangeEncode (runRange es initRangeState).fromVal
          (runRange es initRangeState).toVal := by
  have hinit : RangeInv initRangeState :=
    ⟨rfl, List.not_mem_nil '~', List.not_mem_nil '~',
      ⟨[], List.not_mem_nil '~', rfl⟩, ⟨[], List.not_mem_nil '~', rfl⟩⟩
  exact (runRange_inv es initRangeState hnt hinit).1

/-- Witness for `c5_range_slot_amended`: typing `3` into the `from` input
leaves the slot holding `"range:3~"`. -/
theorem c5_range_slot_witness :
    (noTildeEvents [(0, .efrom (("3").data))] = true)
      ∧ (runRange [(0, .efrom (("3").data))] initRangeState).slot
        = specRangeEncode (runRange [(0, .efrom (("3").data))] initRangeState).fromVal
            (runRange [(0, .efrom (("3").data))] initRangeState).toVal :=
  ⟨by decide, c5_range_slot_amended [(0, .efrom (("3").data))] (by decide)⟩
